import Mathlib

/-!
# ZenPiano — verification of the note-scheduling / playback core

Shallow embedding of the ZenPiano repository's core logic:

* the reference-counted `ActiveNoteMap` (`useNotePlayer.ts` `handleNoteStart` /
  `handleNoteStop`, and the scheduled-playback callbacks built in
  `useSongPlayer.ts` `handlePlay`),
* pitch-name normalization with its LRU memo cache (`utils/noteUtils.ts`),
* the sample-fetch retry loop (`services/audioService.ts` `fetchWithRetry`),
* the `AudioService` play / pause / reset state machine,
* the event scheduler timeline and the waterfall time-window culler
  (`components/Waterfall.tsx`),
* a model of the sustain-pedal resolver described by the design document
  (no such code exists under the repository's source tree).

JS `Map<string, number>` values are modelled as insertion-ordered association
lists `List (String × Int)`; JS numbers that only ever hold small integers are
modelled as `Int`, times in seconds as `ℚ`.
-/

namespace ZenPiano

/-! ## ActiveNoteMap

`useNotePlayer.ts` (reference-counted revision) and the `onNoteStart` /
`onNoteStop` callbacks in `useSongPlayer.ts` `handlePlay` both mutate a
`Map<string, number>` of reference counts with the same two operations:

* start:  `next.set(n, (next.get(n) || 0) + 1)`
* stop:   `c = next.get(n) || 0; if (c <= 1) next.delete(n) else next.set(n, c - 1)`

The renderers (`Waterfall.tsx`, `Piano.tsx`) report a pitch active via
`(activeNotes.get(note) || 0) > 0`.
-/

/-- A JS `Map<string, number>`: insertion-ordered association list with
unique keys (uniqueness is a consequence of `anSet` / `anDelete` semantics,
not assumed anywhere). -/
abbrev ANMap := List (String × Int)

/-- `m.get(p) || 0` — the stored count, with an absent entry counting as 0. -/
def anGet (m : ANMap) (p : String) : Int :=
  match m with
  | [] => 0
  | (k, v) :: rest => if k = p then v else anGet rest p

/-- `m.set(p, v)` — JS `Map.set`: overwrite in place if the key is present,
otherwise append at the end (insertion order). -/
def anSet (m : ANMap) (p : String) (v : Int) : ANMap :=
  match m with
  | [] => [(p, v)]
  | (k, w) :: rest => if k = p then (k, v) :: rest else (k, w) :: anSet rest p v

/-- `m.delete(p)` — JS `Map.delete`: remove the entry for `p` if present. -/
def anDelete (m : ANMap) (p : String) : ANMap :=
  match m with
  | [] => []
  | (k, w) :: rest => if k = p then rest else (k, w) :: anDelete rest p

/-- The note-start mutation: `next.set(n, (next.get(n) || 0) + 1)`
(`useNotePlayer.ts` `handleNoteStart` state update, and the
`onNoteStart` callback of `useSongPlayer.ts` `handlePlay`). -/
def increment (m : ANMap) (p : String) : ANMap :=
  anSet m p (anGet m p + 1)

/-- The note-stop mutation: delete when the stored count is ≤ 1, else
decrement (`useNotePlayer.ts` `handleNoteStop` state update, and the
`onNoteStop` callback of `useSongPlayer.ts` `handlePlay`). -/
def decrement (m : ANMap) (p : String) : ANMap :=
  let c := anGet m p
  if c ≤ 1 then anDelete m p else anSet m p (c - 1)

/-- How the renderers report a pitch active:
`(activeNotes.get(note) || 0) > 0` (`Waterfall.tsx` keyboard row,
`Piano.tsx` `isActive` prop). -/
def isActiveReported (m : ANMap) (p : String) : Bool :=
  decide (0 < anGet m p)

/-- One increment (note-start) or decrement (note-stop) on the
ActiveNoteMap, issued from manual input or a scheduled-playback callback
(both sites perform identical mutations). -/
inductive NoteOp where
  | start (p : String)
  | stop (p : String)
deriving DecidableEq

/-- Apply one operation to the map. -/
def applyOp (m : ANMap) : NoteOp → ANMap
  | .start p => increment m p
  | .stop p => decrement m p

/-- Run a whole interleaving of operations from the initial empty map. -/
def applyOps (ops : List NoteOp) : ANMap :=
  ops.foldl applyOp []

/-- Invariant: every entry physically present in the map stores a count ≥ 1. -/
def EntriesPos (m : ANMap) : Prop :=
  ∀ e ∈ m, 1 ≤ e.2

theorem entriesPos_nil : EntriesPos [] := by
  intro e he
  cases he

theorem anGet_nonneg {m : ANMap} (h : EntriesPos m) (p : String) :
    0 ≤ anGet m p := by
  induction m with
  | nil => simp [anGet]
  | cons e rest ih =>
    obtain ⟨k, v⟩ := e
    rw [anGet]
    by_cases hk : k = p
    · rw [if_pos hk]
      have := h (k, v) (List.mem_cons_self _ _)
      omega
    · rw [if_neg hk]
      exact ih (fun e he => h e (List.mem_cons_of_mem _ he))

theorem mem_anSet {m : ANMap} {p : String} {v : Int} {e : String × Int}
    (h : e ∈ anSet m p v) : e ∈ m ∨ e = (p, v) := by
  induction m with
  | nil =>
    simp [anSet] at h
    exact Or.inr h
  | cons hd rest ih =>
    obtain ⟨k, w⟩ := hd
    simp only [anSet] at h
    by_cases hk : k = p
    · simp only [if_pos hk] at h
      rcases List.mem_cons.mp h with h1 | h1
      · subst hk
        exact Or.inr h1
      · exact Or.inl (List.mem_cons_of_mem _ h1)
    · simp only [if_neg hk] at h
      rcases List.mem_cons.mp h with h1 | h1
      · exact Or.inl (h1 ▸ List.mem_cons_self _ _)
      · rcases ih h1 with h2 | h2
        · exact Or.inl (List.mem_cons_of_mem _ h2)
        · exact Or.inr h2

theorem mem_anDelete {m : ANMap} {p : String} {e : String × Int}
    (h : e ∈ anDelete m p) : e ∈ m := by
  induction m with
  | nil => simp [anDelete] at h
  | cons hd rest ih =>
    obtain ⟨k, w⟩ := hd
    simp only [anDelete] at h
    by_cases hk : k = p
    · simp only [if_pos hk] at h
      exact List.mem_cons_of_mem _ h
    · simp only [if_neg hk] at h
      rcases List.mem_cons.mp h with h1 | h1
      · exact h1 ▸ List.mem_cons_self _ _
      · exact List.mem_cons_of_mem _ (ih h1)

theorem entriesPos_increment {m : ANMap} (h : EntriesPos m) (p : String) :
    EntriesPos (increment m p) := by
  intro e he
  rcases mem_anSet he with h1 | h1
  · exact h e h1
  · subst h1
    have := anGet_nonneg h p
    simp only
    omega

theorem entriesPos_decrement {m : ANMap} (h : EntriesPos m) (p : String) :
    EntriesPos (decrement m p) := by
  intro e he
  unfold decrement at he
  by_cases hc : anGet m p ≤ 1
  · simp only [if_pos hc] at he
    exact h e (mem_anDelete he)
  · simp only [if_neg hc] at he
    rcases mem_anSet he with h1 | h1
    · exact h e h1
    · subst h1
      simp only
      omega

theorem entriesPos_applyOp {m : ANMap} (h : EntriesPos m) (op : NoteOp) :
    EntriesPos (applyOp m op) := by
  cases op with
  | start p => exact entriesPos_increment h p
  | stop p => exact entriesPos_decrement h p

theorem entriesPos_foldl {m : ANMap} (h : EntriesPos m) (ops : List NoteOp) :
    EntriesPos (ops.foldl applyOp m) := by
  induction ops generalizing m with
  | nil => exact h
  | cons op rest ih => exact ih (entriesPos_applyOp h op)

theorem entriesPos_applyOps (ops : List NoteOp) : EntriesPos (applyOps ops) :=
  entriesPos_foldl entriesPos_nil ops

/-- C1: for every interleaving of note-start (increment) and note-stop
(decrement) operations on the ActiveNoteMap — whether issued from manual
input or from scheduled-playback callbacks, which perform identical map
mutations — the reference count stored for any pitch is never negative,
and a pitch is reported active exactly when its count is greater than
zero, an absent map entry counting as zero. -/
theorem activeNoteMap_refcount_invariant (ops : List NoteOp) (p : String) :
    0 ≤ anGet (applyOps ops) p ∧
      (isActiveReported (applyOps ops) p = true ↔ 0 < anGet (applyOps ops) p) := by
  refine ⟨anGet_nonneg (entriesPos_applyOps ops) p, ?_⟩
  simp [isActiveReported]

/-! ## noteUtils.ts — pitch-name normalization

`normalizeNote` validates against the regex `^([A-Ga-g][#b]?)(\d)$`,
upper-cases the first character and lower-cases the rest of the matched
name, checks membership in `VALID_NOTE_NAMES`, checks the octave is in
0–8, converts a trailing flat to its enharmonic sharp via
`FLAT_TO_SHARP_MAP`, and returns `name + octave`.  Strings are modelled
through their character lists. -/

/-- The regex character class `[A-Ga-g]`, written out. -/
def noteLetterChars : List Char :=
  ['A', 'B', 'C', 'D', 'E', 'F', 'G', 'a', 'b', 'c', 'd', 'e', 'f', 'g']

/-- The regex character class `\d` (ASCII digits), written out. -/
def digitChars : List Char :=
  ['0', '1', '2', '3', '4', '5', '6', '7', '8', '9']

/-- `NOTE_PATTERN = /^([A-Ga-g][#b]?)(\d)$/` — on success returns the
captured note name (one letter plus optional accidental) and the octave
digit.  The whole string must match, so only lengths 2 and 3 succeed. -/
def matchNotePattern (s : String) : Option (List Char × Char) :=
  match s.toList with
  | [c, d] =>
    if noteLetterChars.contains c && digitChars.contains d then
      some ([c], d)
    else none
  | [c, m, d] =>
    if noteLetterChars.contains c && (m == '#' || m == 'b')
        && digitChars.contains d then
      some ([c, m], d)
    else none
  | _ => none

/-- `VALID_NOTE_NAMES` from `noteUtils.ts` (as character lists). -/
def VALID_NOTE_NAMES : List (List Char) :=
  [['C'], ['C', '#'], ['D'], ['D', '#'], ['E'], ['F'], ['F', '#'],
   ['G'], ['G', '#'], ['A'], ['A', '#'], ['B'],
   ['D', 'b'], ['E', 'b'], ['G', 'b'], ['A', 'b'], ['B', 'b']]

/-- `FLAT_TO_SHARP_MAP` from `noteUtils.ts`: base letter of a flat name to
its enharmonic sharp name. -/
def FLAT_TO_SHARP_MAP (base : Char) : Option (List Char) :=
  if base = 'D' then some ['C', '#']
  else if base = 'E' then some ['D', '#']
  else if base = 'G' then some ['F', '#']
  else if base = 'A' then some ['G', '#']
  else if base = 'B' then some ['A', '#']
  else none

/-- `noteName.charAt(0).toUpperCase() + noteName.slice(1).toLowerCase()`. -/
def upperFirstLowerRest : List Char → List Char
  | [] => []
  | c :: rest => c.toUpper :: rest.map Char.toLower

/-- The cache-free body of `normalizeNote` (`noteUtils.ts`): format check,
`VALID_NOTE_NAMES` check, octave range check, flat-to-sharp conversion.
(`parseInt` of a `\d` digit is `char − '0'`, never negative, so the
`octaveNum < 0` half of the range check cannot fire.) -/
def normalizeNote (note : String) : Option String :=
  if note = "" then none
  else
    match matchNotePattern note with
    | none => none
    | some (nameChars, octave) =>
      let upperNoteName := upperFirstLowerRest nameChars
      if VALID_NOTE_NAMES.contains upperNoteName then
        let octaveNum : Nat := octave.toNat - '0'.toNat
        if 8 < octaveNum then none
        else
          let resultNoteName :=
            if upperNoteName.getLast? = some 'b' then
              match upperNoteName.head? with
              | some base =>
                match FLAT_TO_SHARP_MAP base with
                | some r => r
                | none => upperNoteName
              | none => upperNoteName
            else upperNoteName
          some ⟨resultNoteName ++ [octave]⟩
      else none

/-! ### The LRU memo cache around normalizeNote -/

/-- `NORMALIZE_CACHE_MAX_SIZE` from `noteUtils.ts`. -/
def NORMALIZE_CACHE_MAX_SIZE : Nat := 128

/-- The `normalizeCache` JS `Map<string, string | null>`, insertion-ordered. -/
abbrev NormalizeCache := List (String × Option String)

/-- `normalizeCache.has(k)` / `.get(k)` combined: `some v` when present. -/
def cacheLookup (c : NormalizeCache) (k : String) : Option (Option String) :=
  match c with
  | [] => none
  | (k2, v) :: rest => if k2 = k then some v else cacheLookup rest k

/-- JS `Map.set`: overwrite in place or append. -/
def cacheSet (c : NormalizeCache) (k : String) (v : Option String) :
    NormalizeCache :=
  match c with
  | [] => [(k, v)]
  | (k2, w) :: rest =>
    if k2 = k then (k2, v) :: rest else (k2, w) :: cacheSet rest k v

/-- `cacheResult` from `noteUtils.ts`: when the cache is full, delete the
oldest entry (`keys().next().value`, the first insertion), then store. -/
def cacheResult (c : NormalizeCache) (k : String) (v : Option String) :
    NormalizeCache :=
  let c2 := if NORMALIZE_CACHE_MAX_SIZE ≤ c.length then c.tail else c
  cacheSet c2 k v

/-- The exported `normalizeNote` with its cache: consult the cache first;
on a miss run the body (every return path of the body stores exactly the
value it returns via `cacheResult`, including `null` results; the initial
`if (!note)` early-out is not cached). -/
def normalizeNoteCached (c : NormalizeCache) (note : String) :
    Option String × NormalizeCache :=
  if note = "" then (none, c)
  else
    match cacheLookup c note with
    | some v => (v, c)
    | none => (normalizeNote note, cacheResult c note (normalizeNote note))

/-- The cache state after a sequence of `normalizeNote` calls starting
from the empty cache. -/
def runNormalizeCalls (prev : List String) : NormalizeCache :=
  prev.foldl (fun c s => (normalizeNoteCached c s).2) []

/-! ## useNotePlayer.ts — manual note handlers (reference-counted revision)

Each handler returns the updated map together with the pitch passed to the
audio layer (`startTone` / `stopTone`), or `none` when no audio call is
made.  The audio-call guards read the pre-update map, as the code reads
the `activeNotes` prop rather than the freshly updated state. -/

/-- `PianoStatus` from `types.ts`. -/
inductive PianoStatus where
  | idle
  | fetchingAI
  | ready
  | playingSong
  | paused
deriving DecidableEq

/-- `handleNoteStart`: rejected during song playback; invalid pitch names
are dropped before any effect; the count is always incremented;
`startTone` fires only when the prior count was 0. -/
def handleNoteStart (status : PianoStatus) (m : ANMap) (note : String) :
    ANMap × Option String :=
  if status = PianoStatus.playingSong then (m, none)
  else
    match normalizeNote note with
    | none => (m, none)
    | some n =>
      (increment m n, if anGet m n = 0 then some n else none)

/-- `handleNoteStop`: rejected during song playback; invalid pitch names
are dropped before any effect; the count entry is deleted when ≤ 1, else
decremented; `stopTone` fires when the prior count was ≤ 1
(the code's guard is `(activeNotes.get(normalized) || 0) <= 1`). -/
def handleNoteStop (status : PianoStatus) (m : ANMap) (note : String) :
    ANMap × Option String :=
  if status = PianoStatus.playingSong then (m, none)
  else
    match normalizeNote note with
    | none => (m, none)
    | some n =>
      (decrement m n, if anGet m n ≤ 1 then some n else none)

/-! ## The claim-side acceptance grammar for pitch names

The claim asserts `normalizeNote` accepts exactly: a letter A–G in either
case, an optional sharp or flat, and an octave digit 0–8.  These
definitions state that grammar; the code additionally requires the
letter+accidental combination to be a `VALID_NOTE_NAMES` member, which
excludes the non-existent enharmonics E#, B#, Cb and Fb. -/

/-- A pitch letter A–G, in either case, as the claim states it. -/
def claimPitchLetters : List Char :=
  ['A', 'B', 'C', 'D', 'E', 'F', 'G', 'a', 'b', 'c', 'd', 'e', 'f', 'g']

/-- An octave digit 0–8, as the claim states it. -/
def claimOctaveDigits : List Char :=
  ['0', '1', '2', '3', '4', '5', '6', '7', '8']

/-- The acceptance grammar exactly as the claim words it: letter A–G in
either case, optional sharp or flat, octave digit 0–8. -/
def claimAccepts (s : String) : Bool :=
  match s.toList with
  | [c, d] => claimPitchLetters.contains c && claimOctaveDigits.contains d
  | [c, m, d] =>
    claimPitchLetters.contains c && (m == '#' || m == 'b')
      && claimOctaveDigits.contains d
  | _ => false

/-- Amended normalization rule: the letter+accidental pair must also form
an existing note name — sharps only on C, D, F, G, A and flats only on
D, E, G, A, B (flats canonicalized to their enharmonic sharps). -/
def specCanonicalName (u : Char) (m : Char) : Option (List Char) :=
  if m = '#' then
    if ['C', 'D', 'F', 'G', 'A'].contains u then some [u, '#'] else none
  else if m = 'b' then
    if u = 'D' then some ['C', '#']
    else if u = 'E' then some ['D', '#']
    else if u = 'G' then some ['F', '#']
    else if u = 'A' then some ['G', '#']
    else if u = 'B' then some ['A', '#']
    else none
  else none

/-- The amended claim's normalization function: accept the claimed grammar
restricted to existing note names, upper-case the letter, canonicalize a
flat to its enharmonic sharp, and append the octave digit. -/
def specNormalize (s : String) : Option String :=
  match s.toList with
  | [c, d] =>
    if claimPitchLetters.contains c && claimOctaveDigits.contains d then
      some ⟨[c.toUpper, d]⟩
    else none
  | [c, m, d] =>
    if claimPitchLetters.contains c && claimOctaveDigits.contains d then
      match specCanonicalName c.toUpper m with
      | some name => some ⟨name ++ [d]⟩
      | none => none
    else none
  | _ => none

theorem octave_digit_is_digit {d : Char} (h : d ∈ claimOctaveDigits) :
    d ∈ digitChars := by
  fin_cases h <;> decide

theorem claimPitch_eq_noteLetters : claimPitchLetters = noteLetterChars := rfl

set_option maxHeartbeats 4000000 in
theorem normalizeNote_eq_specNormalize (s : String) :
    normalizeNote s = specNormalize s := by
  obtain ⟨cs⟩ := s
  match cs with
  | [] => rfl
  | [c] =>
    show normalizeNote ⟨[c]⟩ = specNormalize ⟨[c]⟩
    have hne : (⟨[c]⟩ : String) ≠ "" := by simp [String.ext_iff]
    simp only [normalizeNote, if_neg hne, matchNotePattern, String.toList,
      specNormalize]
  | [c, d] =>
    show normalizeNote ⟨[c, d]⟩ = specNormalize ⟨[c, d]⟩
    have hne : (⟨[c, d]⟩ : String) ≠ "" := by simp [String.ext_iff]
    by_cases hc : c ∈ noteLetterChars
    · by_cases hd : d ∈ digitChars
      · fin_cases hc <;> fin_cases hd <;> decide
      · have hd9 : ¬ d ∈ claimOctaveDigits := fun h => hd (octave_digit_is_digit h)
        simp [normalizeNote, if_neg hne, matchNotePattern, String.toList,
          specNormalize, hd, hd9]
    · have hc9 : ¬ c ∈ claimPitchLetters := by
        rw [claimPitch_eq_noteLetters]
        exact hc
      simp [normalizeNote, if_neg hne, matchNotePattern, String.toList,
        specNormalize, hc, hc9]
  | [c, m, d] =>
    show normalizeNote ⟨[c, m, d]⟩ = specNormalize ⟨[c, m, d]⟩
    have hne : (⟨[c, m, d]⟩ : String) ≠ "" := by simp [String.ext_iff]
    by_cases hc : c ∈ noteLetterChars
    · by_cases hm : m = '#' ∨ m = 'b'
      · by_cases hd : d ∈ digitChars
        · rcases hm with hm | hm <;> subst hm <;>
            fin_cases hc <;> fin_cases hd <;> decide
        · have hd9 : ¬ d ∈ claimOctaveDigits := fun h => hd (octave_digit_is_digit h)
          rcases hm with hm | hm <;> subst hm <;>
            simp [normalizeNote, if_neg hne, matchNotePattern, String.toList,
              specNormalize, hd, hd9]
      · push_neg at hm
        obtain ⟨hm1, hm2⟩ := hm
        simp [normalizeNote, if_neg hne, matchNotePattern, String.toList,
          specNormalize, specCanonicalName, hm1, hm2]
    · have hc9 : ¬ c ∈ claimPitchLetters := by
        rw [claimPitch_eq_noteLetters]
        exact hc
      simp [normalizeNote, if_neg hne, matchNotePattern, String.toList,
        specNormalize, hc, hc9]
  | c1 :: c2 :: c3 :: c4 :: rest =>
    show normalizeNote ⟨c1 :: c2 :: c3 :: c4 :: rest⟩ =
      specNormalize ⟨c1 :: c2 :: c3 :: c4 :: rest⟩
    have hne : (⟨c1 :: c2 :: c3 :: c4 :: rest⟩ : String) ≠ "" := by
      simp [String.ext_iff]
    simp only [normalizeNote, if_neg hne, matchNotePattern, String.toList,
      specNormalize]

/-- C8 counterexample: "E#4" fits the claim's acceptance grammar (letter
A–G, optional sharp, octave digit 0–8), yet `normalizeNote` rejects it,
because "E#" is not in `VALID_NOTE_NAMES`. -/
theorem normalizeNote_rejects_claimed_grammar :
    claimAccepts "E#4" = true ∧ normalizeNote "E#4" = none := by
  decide

/-- C8 (amended): `normalizeNote` accepts exactly the claimed grammar
restricted to letter+accidental pairs that form an existing note name
(E#, B#, Cb, Fb are rejected), canonicalizing flats to enharmonic sharps
and upper-casing — i.e. it coincides with `specNormalize` on every
string — and the manual note handlers silently ignore any identifier
`normalizeNote` rejects: no map change and no audio call. -/
theorem normalizeNote_spec_and_handlers_ignore_invalid :
    (∀ s : String, normalizeNote s = specNormalize s) ∧
    (∀ (status : PianoStatus) (m : ANMap) (note : String),
      normalizeNote note = none →
        handleNoteStart status m note = (m, none) ∧
        handleNoteStop status m note = (m, none)) := by
  refine ⟨normalizeNote_eq_specNormalize, ?_⟩
  intro status m note h
  constructor
  · unfold handleNoteStart
    split
    · rfl
    · rw [h]
  · unfold handleNoteStop
    split
    · rfl
    · rw [h]

/-- C8 witness: the theorem applied at concrete inputs — "db5" is
canonicalized, and the stop handler ignores the invalid name "E#4". -/
theorem normalizeNote_spec_and_handlers_ignore_invalid_witness :
    normalizeNote "db5" = specNormalize "db5" ∧
    handleNoteStop PianoStatus.ready [] "E#4" = ([], none) :=
  ⟨normalizeNote_spec_and_handlers_ignore_invalid.1 "db5",
   (normalizeNote_spec_and_handlers_ignore_invalid.2 PianoStatus.ready []
     "E#4" (by decide)).2⟩

/-- C6: evaluating `handleNoteStop` at a pitch whose reference count is
already zero (no map entry): the map is unchanged, but the handler still
calls `audioService.stopTone` — its guard is
`(activeNotes.get(n) || 0) <= 1`, which includes a count of 0 — contrary
to the claim (and the code's own comment) that a release fires only when
the count reaches zero as a result of the decrement. -/
theorem handleNoteStop_fires_release_at_zero_count :
    handleNoteStop PianoStatus.ready [] "C4" = ([], some "C4") := by
  decide

/-! ### Cache transparency of normalizeNote (memoization) -/

/-- Every entry of the cache stores exactly the cache-free result for its
key. -/
def CacheFaithful (c : NormalizeCache) : Prop :=
  ∀ e ∈ c, e.2 = normalizeNote e.1

theorem cacheLookup_mem {c : NormalizeCache} {k : String} {v : Option String}
    (h : cacheLookup c k = some v) : (k, v) ∈ c := by
  induction c with
  | nil => simp [cacheLookup] at h
  | cons hd rest ih =>
    obtain ⟨k2, w⟩ := hd
    rw [cacheLookup] at h
    by_cases hk : k2 = k
    · rw [if_pos hk] at h
      obtain rfl : w = v := by injection h
      subst hk
      exact List.mem_cons_self _ _
    · rw [if_neg hk] at h
      exact List.mem_cons_of_mem _ (ih h)

theorem mem_cacheSet {c : NormalizeCache} {k : String} {v : Option String}
    {e : String × Option String} (h : e ∈ cacheSet c k v) :
    e ∈ c ∨ e = (k, v) := by
  induction c with
  | nil =>
    simp [cacheSet] at h
    exact Or.inr h
  | cons hd rest ih =>
    obtain ⟨k2, w⟩ := hd
    rw [cacheSet] at h
    by_cases hk : k2 = k
    · rw [if_pos hk] at h
      rcases List.mem_cons.mp h with h1 | h1
      · subst hk
        exact Or.inr h1
      · exact Or.inl (List.mem_cons_of_mem _ h1)
    · rw [if_neg hk] at h
      rcases List.mem_cons.mp h with h1 | h1
      · exact Or.inl (h1 ▸ List.mem_cons_self _ _)
      · rcases ih h1 with h2 | h2
        · exact Or.inl (List.mem_cons_of_mem _ h2)
        · exact Or.inr h2

theorem cacheFaithful_cacheResult {c : NormalizeCache} {k : String}
    {v : Option String} (hc : CacheFaithful c) (hv : v = normalizeNote k) :
    CacheFaithful (cacheResult c k v) := by
  intro e he
  unfold cacheResult at he
  rcases mem_cacheSet he with h1 | h1
  · by_cases hlen : NORMALIZE_CACHE_MAX_SIZE ≤ c.length
    · rw [if_pos hlen] at h1
      exact hc e (List.mem_of_mem_tail h1)
    · rw [if_neg hlen] at h1
      exact hc e h1
  · subst h1
    exact hv

theorem cacheFaithful_step {c : NormalizeCache} (hc : CacheFaithful c)
    (s : String) : CacheFaithful (normalizeNoteCached c s).2 := by
  unfold normalizeNoteCached
  by_cases hs : s = ""
  · rw [if_pos hs]
    exact hc
  · rw [if_neg hs]
    cases hl : cacheLookup c s with
    | some v => exact hc
    | none => exact cacheFaithful_cacheResult hc rfl

theorem cacheFaithful_run_from {c : NormalizeCache} (hc : CacheFaithful c)
    (calls : List String) :
    CacheFaithful (calls.foldl (fun c s => (normalizeNoteCached c s).2) c) := by
  induction calls generalizing c with
  | nil => exact hc
  | cons s rest ih => exact ih (cacheFaithful_step hc s)

theorem cacheFaithful_runNormalizeCalls (prev : List String) :
    CacheFaithful (runNormalizeCalls prev) :=
  cacheFaithful_run_from (fun _ he => absurd he (List.not_mem_nil _)) prev

/-- C10: the memoized `normalizeNote` is cache-transparent — whatever
sequence of calls preceded it (filling, eviction, cached `null`s
included), a call on `s` returns exactly what the cache-free body
computes on `s`. -/
theorem normalizeNote_cache_transparent (prev : List String) (s : String) :
    (normalizeNoteCached (runNormalizeCalls prev) s).1 = normalizeNote s := by
  have hc := cacheFaithful_runNormalizeCalls prev
  unfold normalizeNoteCached
  by_cases hs : s = ""
  · rw [if_pos hs, hs]
    rfl
  · rw [if_neg hs]
    cases hl : cacheLookup (runNormalizeCalls prev) s with
    | some v => exact hc (s, v) (cacheLookup_mem hl)
    | none => rfl

/-! ## audioService.ts — fetchWithRetry

```
async function fetchWithRetry(url, signal, retries = 3) {
  for (let i = 0; i < retries; i++) {
    try {
      const response = await fetch(url, ...);
      if (response.ok) return response;
      if (response.status === 404) throw new Error(`404 Not Found`);
    } catch (err) {
      if (i === retries - 1) throw err;
      if (err.name === 'AbortError') throw err;
      await new Promise(resolve => setTimeout(resolve, 1000 * (i + 1)));
    }
  }
  throw new Error(`Failed after N attempts`);
}
```

The `fetch` call is abstracted by an oracle giving the outcome of each
attempt.  Note the `404` error is thrown inside the `try`, so it lands in
the function's own `catch` block. -/

/-- Outcome of one `fetch` attempt. -/
inductive FetchOutcome where
  | ok
  | http404
  | httpOther
  | netError
  | abortError
deriving DecidableEq

/-- How `fetchWithRetry` terminates. -/
inductive FetchResult where
  | success
  | thrown404
  | thrownNet
  | thrownAbort
  | failedAfterRetries
deriving DecidableEq

/-- Result plus observable effects: how many `fetch` calls were issued and
which backoff sleeps (ms) were awaited. -/
structure FetchTrace where
  result : FetchResult
  fetchCalls : Nat
  sleeps : List Nat
deriving DecidableEq

/-- The `for` loop of `fetchWithRetry`, with the loop condition
`i < retries` expressed through the structurally decreasing count
`remaining = retries − i`.  A non-ok non-404 response neither returns nor
throws, so the loop continues without a backoff sleep. -/
def fetchLoop (oracle : Nat → FetchOutcome) (retries : Nat) :
    Nat → Nat → Nat → List Nat → FetchTrace
  | 0, _, calls, sleeps => ⟨.failedAfterRetries, calls, sleeps⟩
  | remaining + 1, i, calls, sleeps =>
    match oracle i with
    | .ok => ⟨.success, calls + 1, sleeps⟩
    | .httpOther => fetchLoop oracle retries remaining (i + 1) (calls + 1) sleeps
    | .http404 =>
      if i = retries - 1 then ⟨.thrown404, calls + 1, sleeps⟩
      else
        fetchLoop oracle retries remaining (i + 1) (calls + 1)
          (sleeps ++ [1000 * (i + 1)])
    | .netError =>
      if i = retries - 1 then ⟨.thrownNet, calls + 1, sleeps⟩
      else
        fetchLoop oracle retries remaining (i + 1) (calls + 1)
          (sleeps ++ [1000 * (i + 1)])
    | .abortError => ⟨.thrownAbort, calls + 1, sleeps⟩

/-- `fetchWithRetry` with its default `retries = 3`. -/
def fetchWithRetry (oracle : Nat → FetchOutcome) (retries : Nat := 3) :
    FetchTrace :=
  fetchLoop oracle retries retries 0 0 []

/-- A first attempt answered 404, a second attempt that would succeed. -/
def oracle404ThenOk : Nat → FetchOutcome :=
  fun i => if i = 0 then .http404 else .ok

/-- C5: a 404 response is NOT treated as a permanent failure.  The thrown
`404 Not Found` error is caught by the loop's own `catch`, which sleeps
and retries: a 404 on the first attempt is followed by a second `fetch`
call (2 calls, 1s backoff, overall success here); a persistent 404 runs
all 3 attempts with linear backoff exactly like a persistent network
error. -/
theorem fetchWithRetry_retries_after_404 :
    fetchWithRetry oracle404ThenOk 3 = ⟨.success, 2, [1000]⟩ ∧
    fetchWithRetry (fun _ => .http404) 3 = ⟨.thrown404, 3, [1000, 2000]⟩ ∧
    fetchWithRetry (fun _ => .netError) 3 = ⟨.thrownNet, 3, [1000, 2000]⟩ := by
  decide

/-! ## SustainPedalResolver (spec §4.4) -/

/-- A sustain-pedal control event. -/
structure PedalEvent where
  time : ℚ
  down : Bool

/-- Modelled from the spec: the repository's source tree contains no
SustainPedalResolver implementation (only the design document §4.4
describes it).  For each note: take the most recent pedal state at or
before the note's nominal release time; if that state is "down", the
hold duration is (the next pedal-up's time − note start), falling back to
the last known pedal event's time when no pedal-up follows; otherwise the
hold duration is the nominal duration (also when there are no pedal
events at all).  `pedals` is assumed time-sorted, as pedal CC events of a
MIDI track are. -/
def resolveHoldDuration (noteStart duration : ℚ) (pedals : List PedalEvent) :
    ℚ :=
  let release := noteStart + duration
  match (pedals.filter (fun p => p.time ≤ release)).getLast? with
  | none => duration
  | some lastPrior =>
    if lastPrior.down then
      match (pedals.filter (fun p => release < p.time ∧ p.down = false)).head? with
      | some nextUp => nextUp.time - noteStart
      | none =>
        match pedals.getLast? with
        | some lastEvent => lastEvent.time - noteStart
        | none => duration
    else duration

/-- C9: for a note released at t = 10 with the pedal down at t = 10 and a
pedal-up at t = 14, the hold duration is 14 − noteStart; with the pedal
already up at t = 10 (down at 6, up at 9), the hold duration is the
nominal duration. -/
theorem sustain_resolution (noteStart duration : ℚ)
    (h : noteStart + duration = 10) :
    resolveHoldDuration noteStart duration [⟨10, true⟩, ⟨14, false⟩]
        = 14 - noteStart ∧
    resolveHoldDuration noteStart duration [⟨6, true⟩, ⟨9, false⟩]
        = duration := by
  unfold resolveHoldDuration
  rw [h]
  norm_num

/-- C9 witness: the sustain-resolution theorem at noteStart = 7,
duration = 3. -/
theorem sustain_resolution_witness :
    resolveHoldDuration 7 3 [⟨10, true⟩, ⟨14, false⟩] = 14 - 7 ∧
    resolveHoldDuration 7 3 [⟨6, true⟩, ⟨9, false⟩] = 3 :=
  sustain_resolution 7 3 (by norm_num)

/-! ## Scheduled playback timeline (audioService.ts scheduleEvents +
useSongPlayer.ts callbacks)

`scheduleEvents` registers, for each event, an `onNoteStart` callback at
`event.time` and an `onNoteStop` callback at `event.time + event.duration`
on the transport; the transport fires callbacks in ascending time order.
The callbacks perform the `increment` / `decrement` map mutations of
`useSongPlayer.ts` `handlePlay`. -/

/-- One event as passed to `scheduleEvents`. -/
structure NoteEventJS where
  note : String
  time : ℚ
  duration : ℚ
  velocity : ℚ

/-- The transport schedule built by `scheduleEvents`: a note-start at
`time` and a note-stop at `time + duration` for each event. -/
def timelineOps (events : List NoteEventJS) : List (ℚ × NoteOp) :=
  events.flatMap fun e =>
    [(e.time, NoteOp.start e.note), (e.time + e.duration, NoteOp.stop e.note)]

/-- Stable insertion by time (an op is placed after all ops with earlier
or equal time), modelling the transport firing callbacks in time order,
ties kept in registration order. -/
def insertByTime (p : ℚ × NoteOp) : List (ℚ × NoteOp) → List (ℚ × NoteOp)
  | [] => [p]
  | q :: rest => if q.1 ≤ p.1 then q :: insertByTime p rest else p :: q :: rest

/-- Stable sort by time. -/
def sortByTime : List (ℚ × NoteOp) → List (ℚ × NoteOp)
  | [] => []
  | p :: rest => insertByTime p (sortByTime rest)

/-- The ActiveNoteMap produced by all callbacks fired up to (and
including) clock time `t`. -/
def trackedStateAt (events : List NoteEventJS) (t : ℚ) : ANMap :=
  (((sortByTime (timelineOps events)).filter (fun p => p.1 ≤ t)).map
    Prod.snd).foldl applyOp []

/-- Event A of the overlap scenario: pitch C4 spanning [5s, 10s). -/
def eventA : NoteEventJS := ⟨"C4", 5, 5, 7/10⟩

/-- Event B of the overlap scenario: pitch C4 spanning [8s, 13s). -/
def eventB : NoteEventJS := ⟨"C4", 8, 5, 7/10⟩

/-- C4: with the two same-pitch events A [5s,10s) and B [8s,13s)
scheduled, the tracked active state of C4 is reported active at every
clock time from 5s up to (but excluding) 13s; in particular at 10s,
where A's note-off has fired but B is still sounding, the count is 1 and
no false off occurs. -/
theorem overlap_sustain_active (t : ℚ) (h5 : 5 ≤ t) (h13 : t < 13) :
    isActiveReported (trackedStateAt [eventA, eventB] t) "C4" = true := by
  have hsort : sortByTime (timelineOps [eventA, eventB]) =
      [(5, NoteOp.start "C4"), (8, NoteOp.start "C4"),
       (10, NoteOp.stop "C4"), (13, NoteOp.stop "C4")] := by
    norm_num [timelineOps, eventA, eventB, sortByTime, insertByTime]
  unfold trackedStateAt
  rw [hsort]
  have h13n : ¬ (13 : ℚ) ≤ t := not_le.mpr h13
  rcases le_or_lt 10 t with h10 | h10
  · have h8 : (8 : ℚ) ≤ t := by linarith
    simp [h5, h8, h10, h13n, applyOp, increment, decrement, anGet, anSet,
      anDelete, isActiveReported]
  · rcases le_or_lt 8 t with h8 | h8
    · have h10n : ¬ (10 : ℚ) ≤ t := not_le.mpr h10
      simp [h5, h8, h10n, h13n, applyOp, increment, decrement, anGet, anSet,
        anDelete, isActiveReported]
    · have h8n : ¬ (8 : ℚ) ≤ t := not_le.mpr h8
      have h10n : ¬ (10 : ℚ) ≤ t := not_le.mpr h10
      simp [h5, h8n, h10n, h13n, applyOp, increment, decrement, anGet, anSet,
        anDelete, isActiveReported]

/-- C4 witness: at clock time 10s — A's note-off processed, B still
sounding — C4 is still reported active. -/
theorem overlap_sustain_active_witness :
    isActiveReported (trackedStateAt [eventA, eventB] 10) "C4" = true :=
  overlap_sustain_active 10 (by norm_num) (by norm_num)

/-! ## audioService.ts — the AudioService play / pause / reset machine

Model of the cached-events revision of `AudioService` (`scheduleEvents`
caches the event list; `play(callbacks?)` rebuilds the transport schedule
on fresh callbacks via `rebuildAndSchedule` and resumes otherwise;
`resetPlayback` mutes, stops and cancels the transport).  Each method
returns the successor state paired with the ordered list of atomic
actions it performed on the audio backend. -/

/-- The Tone.js transport state. -/
inductive TransportState where
  | started
  | stopped
  | paused
deriving DecidableEq

/-- Atomic observable actions on the audio backend, in program order. -/
inductive AudioAction where
  | setGainZero
  | setGainRestore
  | samplerVolMute
  | samplerVolRestore
  | transportStop
  | transportCancel
  | transportStart
  | transportPause
  | releaseAll
  | onClearCallback
  | createVoice (id : Nat)
  | scheduleAttack (note : String) (time : ℚ) (duration : ℚ)
  | scheduleEnd (time : ℚ)
deriving DecidableEq

/-- The mutable fields of `AudioService` relevant to playback, plus the
transport's pending schedule. -/
structure AudioServiceState where
  sampler : Option Nat
  nextSamplerId : Nat
  output : Option Unit
  outputGain : ℚ
  cachedEvents : List NoteEventJS
  activeCallbacks : Option Nat
  transport : TransportState
  scheduled : List AudioAction

/-- `mute()`: if an output gain node exists, cancel its ramps and set its
value to 0; if a sampler exists, set its volume to −∞. -/
def mute (s : AudioServiceState) : AudioServiceState × List AudioAction :=
  let (s1, t1) :=
    if s.output.isSome then ({ s with outputGain := 0 }, [AudioAction.setGainZero])
    else (s, [])
  (s1, t1 ++ if s.sampler.isSome then [AudioAction.samplerVolMute] else [])

/-- `unmute()`: restore gain 0.8 and sampler volume −2. -/
def unmute (s : AudioServiceState) : AudioServiceState × List AudioAction :=
  let (s1, t1) :=
    if s.output.isSome then
      ({ s with outputGain := 8/10 }, [AudioAction.setGainRestore])
    else (s, [])
  (s1, t1 ++ if s.sampler.isSome then [AudioAction.samplerVolRestore] else [])

/-- `createSampler()`: return the existing sampler if one is alive,
otherwise build a fresh instance from the cached buffers. -/
def createSampler (s : AudioServiceState) :
    AudioServiceState × Nat × List AudioAction :=
  match s.sampler with
  | some id => (s, id, [])
  | none =>
    let id := s.nextSamplerId
    ({ s with sampler := some id, nextSamplerId := id + 1 }, id,
      [AudioAction.createVoice id])

/-- `maxTime` of `rebuildAndSchedule`: the largest event end time (0 for
an empty list). -/
def maxEndTime (events : List NoteEventJS) : ℚ :=
  events.foldl (fun acc e => max acc (e.time + e.duration)) 0

/-- The transport entries registered by `rebuildAndSchedule`: one
attack+release per cached event, then the end callback at
`maxTime + 0.5`. -/
def scheduleEntries (events : List NoteEventJS) : List AudioAction :=
  (events.map fun e => AudioAction.scheduleAttack e.note e.time e.duration)
    ++ [AudioAction.scheduleEnd (maxEndTime events + 1/2)]

/-- `rebuildAndSchedule()`: no-op without active callbacks; otherwise stop
and cancel the transport, invoke `onClear`, obtain a sampler via
`createSampler` (reusing any existing one), unmute, and schedule every
cached event's attack/release plus the end callback. -/
def rebuildAndSchedule (s : AudioServiceState) :
    AudioServiceState × List AudioAction :=
  match s.activeCallbacks with
  | none => (s, [])
  | some _ =>
    let s1 := { s with transport := TransportState.stopped }
    let s2 := { s1 with scheduled := [] }
    let (s3, _, t3) := createSampler s2
    let (s4, t4) := unmute s3
    let entries := scheduleEntries s4.cachedEvents
    let s5 := { s4 with scheduled := s4.scheduled ++ entries }
    (s5, [AudioAction.transportStop, AudioAction.transportCancel,
          AudioAction.onClearCallback] ++ t3 ++ t4 ++ entries)

/-- `play(callbacks?)`: with callbacks, store them and rebuild+schedule;
in either case ensure a sampler exists, unmute, and start the transport
last. -/
def play (s : AudioServiceState) (callbacks : Option Nat) :
    AudioServiceState × List AudioAction :=
  let (s1, t1) :=
    match callbacks with
    | some cb => rebuildAndSchedule { s with activeCallbacks := some cb }
    | none => (s, [])
  let (s2, t2) :=
    if s1.sampler.isNone then
      let (s2, _, t2) := createSampler s1
      (s2, t2)
    else (s1, [])
  let (s3, t3) := unmute s2
  ({ s3 with transport := TransportState.started },
    t1 ++ t2 ++ t3 ++ [AudioAction.transportStart])

/-- `pause()`: pause the transport and release all sounding voices. -/
def pause (s : AudioServiceState) : AudioServiceState × List AudioAction :=
  ({ s with transport := TransportState.paused },
    AudioAction.transportPause ::
      if s.sampler.isSome then [AudioAction.releaseAll] else [])

/-- `resetPlayback()`: mute, stop the transport, cancel (clear) all
scheduled events, release all voices, drop the active callbacks. -/
def resetPlayback (s : AudioServiceState) :
    AudioServiceState × List AudioAction :=
  let (s1, t1) := mute s
  let s2 := { s1 with transport := TransportState.stopped, scheduled := [] }
  let t2 := [AudioAction.transportStop, AudioAction.transportCancel]
  let t3 := if s2.sampler.isSome then [AudioAction.releaseAll] else []
  ({ s2 with activeCallbacks := none }, t1 ++ t2 ++ t3)

/-- `scheduleEvents(events)`: cache the list, then force-reset. -/
def scheduleEvents (s : AudioServiceState) (events : List NoteEventJS) :
    AudioServiceState × List AudioAction :=
  resetPlayback { s with cachedEvents := events }

/-- A representative loaded idle state: samples decoded, the manual-play
sampler (id 0) alive, output graph built, nothing scheduled. -/
def loadedState : AudioServiceState :=
  { sampler := some 0, nextSamplerId := 1, output := some (),
    outputGain := 8/10, cachedEvents := [], activeCallbacks := none,
    transport := TransportState.stopped, scheduled := [] }

/-- A one-event song for the concrete playback run. -/
def demoEvent : NoteEventJS := ⟨"C4", 0, 1, 7/10⟩

/-- The concrete run of the C2 scenario: schedule a song, start a fresh
play session, pause, then start another fresh play session (new
callbacks). -/
def freshPlayRun : AudioServiceState × List AudioAction :=
  let s1 := (scheduleEvents loadedState [demoEvent]).1
  let s2 := (play s1 (some 1)).1
  let s3 := (pause s2).1
  play s3 (some 2)

/-- C2 counterexample: in the fresh-callback `play()` after `pause()`, the
existing instance-layer voice is NOT torn down and NO new voice is
allocated — `createSampler` returns the live sampler (id 0) unchanged,
`nextSamplerId` stays 1, and the call performs no voice construction. -/
theorem play_fresh_does_not_rebuild_voice :
    freshPlayRun.1.sampler = some 0 ∧
    freshPlayRun.1.nextSamplerId = 1 ∧
    ∀ id, ¬ AudioAction.createVoice id ∈ freshPlayRun.2 := by
  refine ⟨rfl, rfl, ?_⟩
  intro id
  simp [freshPlayRun, scheduleEvents, resetPlayback, mute, play, pause,
    rebuildAndSchedule, createSampler, unmute, loadedState, demoEvent,
    scheduleEntries, maxEndTime]

theorem attack_mem_scheduleEntries {events : List NoteEventJS}
    {e : NoteEventJS} (he : e ∈ events) :
    AudioAction.scheduleAttack e.note e.time e.duration
      ∈ scheduleEntries events := by
  unfold scheduleEntries
  exact List.mem_append_left _ (List.mem_map_of_mem _ he)

/-- C2 (amended): `play()` with fresh callbacks clears the transport
schedule and re-schedules every cached event's attack/release before
starting the clock, reusing the existing instance-layer voice when one is
alive (a new voice is allocated only when none exists); `play()` with no
callbacks after `pause()` resumes the clock and voice without
re-scheduling anything, so no duplicate attacks occur on already-sounding
notes. -/
theorem play_rebuild_vs_resume (s : AudioServiceState) (cb : Nat) :
    ((play s (some cb)).1.scheduled = scheduleEntries s.cachedEvents ∧
      (play s (some cb)).1.transport = TransportState.started ∧
      (∃ pre, (play s (some cb)).2 = pre ++ [AudioAction.transportStart] ∧
        ∀ e ∈ s.cachedEvents,
          AudioAction.scheduleAttack e.note e.time e.duration ∈ pre) ∧
      (s.sampler.isSome → (play s (some cb)).1.sampler = s.sampler)) ∧
    (s.transport = TransportState.paused →
      (play s none).1.scheduled = s.scheduled ∧
      (play s none).1.transport = TransportState.started ∧
      (s.sampler.isSome → (play s none).1.sampler = s.sampler) ∧
      ∀ n t d, ¬ AudioAction.scheduleAttack n t d ∈ (play s none).2) := by
  constructor
  · have hsched : (play s (some cb)).1.scheduled = scheduleEntries s.cachedEvents := by
      rcases hsam : s.sampler with _ | id <;> rcases hout : s.output with _ | u <;>
        simp [play, rebuildAndSchedule, createSampler, unmute, hsam, hout]
    have htrans : (play s (some cb)).1.transport = TransportState.started := by
      rcases hsam : s.sampler with _ | id <;> rcases hout : s.output with _ | u <;>
        simp [play, rebuildAndSchedule, createSampler, unmute, hsam, hout]
    have hsampler : s.sampler.isSome = true →
        (play s (some cb)).1.sampler = s.sampler := by
      intro hs
      rcases hsam : s.sampler with _ | id
      · simp [hsam] at hs
      · rcases hout : s.output with _ | u <;>
          simp [play, rebuildAndSchedule, createSampler, unmute, hsam, hout]
    refine ⟨hsched, htrans, ?_, hsampler⟩
    rcases hsam : s.sampler with _ | id <;> rcases hout : s.output with _ | u
    · refine ⟨[AudioAction.transportStop, AudioAction.transportCancel,
        AudioAction.onClearCallback, AudioAction.createVoice s.nextSamplerId,
        AudioAction.samplerVolRestore] ++ scheduleEntries s.cachedEvents ++
          [AudioAction.samplerVolRestore], ?_, ?_⟩
      · simp [play, rebuildAndSchedule, createSampler, unmute, hsam, hout]
      · intro e he
        exact List.mem_append_left _
          (List.mem_append_right _ (attack_mem_scheduleEntries he))
    · refine ⟨[AudioAction.transportStop, AudioAction.transportCancel,
        AudioAction.onClearCallback, AudioAction.createVoice s.nextSamplerId,
        AudioAction.setGainRestore, AudioAction.samplerVolRestore] ++
          scheduleEntries s.cachedEvents ++
          [AudioAction.setGainRestore, AudioAction.samplerVolRestore], ?_, ?_⟩
      · simp [play, rebuildAndSchedule, createSampler, unmute, hsam, hout]
      · intro e he
        exact List.mem_append_left _
          (List.mem_append_right _ (attack_mem_scheduleEntries he))
    · refine ⟨[AudioAction.transportStop, AudioAction.transportCancel,
        AudioAction.onClearCallback, AudioAction.samplerVolRestore] ++
          scheduleEntries s.cachedEvents ++ [AudioAction.samplerVolRestore],
        ?_, ?_⟩
      · simp [play, rebuildAndSchedule, createSampler, unmute, hsam, hout]
      · intro e he
        exact List.mem_append_left _
          (List.mem_append_right _ (attack_mem_scheduleEntries he))
    · refine ⟨[AudioAction.transportStop, AudioAction.transportCancel,
        AudioAction.onClearCallback, AudioAction.setGainRestore,
        AudioAction.samplerVolRestore] ++ scheduleEntries s.cachedEvents ++
          [AudioAction.setGainRestore, AudioAction.samplerVolRestore], ?_, ?_⟩
      · simp [play, rebuildAndSchedule, createSampler, unmute, hsam, hout]
      · intro e he
        exact List.mem_append_left _
          (List.mem_append_right _ (attack_mem_scheduleEntries he))
  · intro hp
    refine ⟨?_, ?_, ?_, ?_⟩
    · rcases hsam : s.sampler with _ | id <;> rcases hout : s.output with _ | u <;>
        simp [play, createSampler, unmute, hsam, hout]
    · rcases hsam : s.sampler with _ | id <;> rcases hout : s.output with _ | u <;>
        simp [play, createSampler, unmute, hsam, hout]
    · intro hs
      rcases hsam : s.sampler with _ | id
      · simp [hsam] at hs
      · rcases hout : s.output with _ | u <;>
          simp [play, createSampler, unmute, hsam, hout]
    · intro n t d
      rcases hsam : s.sampler with _ | id <;> rcases hout : s.output with _ | u <;>
        simp [play, createSampler, unmute, hsam, hout]

/-- The loaded state with the demo song cached. -/
def scheduledState : AudioServiceState :=
  { loadedState with cachedEvents := [demoEvent] }

/-- The scheduled state, paused mid-playback. -/
def pausedState : AudioServiceState :=
  { scheduledState with transport := TransportState.paused }

/-- C2 witness: the amended theorem applied to the loaded idle state with
one cached event and a fresh callback id. -/
theorem play_rebuild_vs_resume_witness :
    (play scheduledState (some 1)).1.scheduled = scheduleEntries [demoEvent] ∧
    (play pausedState none).1.sampler = some 0 := by
  have h1 := (play_rebuild_vs_resume scheduledState 1).1.1
  have h2 := ((play_rebuild_vs_resume pausedState 1).2 rfl).2.2.1 rfl
  exact ⟨h1, h2⟩

/-- C3: in every invocation of `resetPlayback()` on a state whose output
gain node exists, the output gain is set to zero strictly before the
transport clock is stopped and before the scheduled future events are
cancelled, and the resulting schedule is empty. -/
theorem resetPlayback_mutes_before_stop (s : AudioServiceState)
    (h : s.output.isSome = true) :
    ∃ i, (resetPlayback s).2.get? i = some AudioAction.setGainZero ∧
      (∀ j, ((resetPlayback s).2.get? j = some AudioAction.transportStop ∨
             (resetPlayback s).2.get? j = some AudioAction.transportCancel) →
        i < j) ∧
      (resetPlayback s).1.scheduled = [] := by
  refine ⟨0, ?_, ?_, rfl⟩
  · rcases hsam : s.sampler with _ | id <;>
      simp [resetPlayback, mute, h, hsam]
  · intro j hj
    match j with
    | 0 =>
      exfalso
      rcases hsam : s.sampler with _ | id <;>
        simp [resetPlayback, mute, h, hsam] at hj
    | j + 1 => exact Nat.succ_pos j

/-- C3 witness: the mute-before-stop ordering at the loaded idle state. -/
theorem resetPlayback_mutes_before_stop_witness :
    ∃ i, (resetPlayback loadedState).2.get? i = some AudioAction.setGainZero ∧
      (∀ j, ((resetPlayback loadedState).2.get? j = some AudioAction.transportStop ∨
             (resetPlayback loadedState).2.get? j = some AudioAction.transportCancel) →
        i < j) ∧
      (resetPlayback loadedState).1.scheduled = [] :=
  resetPlayback_mutes_before_stop loadedState rfl

/-! ## Waterfall.tsx — time-windowed culling

`findStartIndex` is the binary search over the time-sorted mapped event
list (identically defined in `utils/noteUtils.ts` and `Waterfall.tsx`);
the render loop walks forward from it, breaking at the first event past
the viewport's forward edge `maxVisibleTime = currentTime + viewDuration
+ 0.5`, and applies the horizontal and vertical per-candidate culls
before drawing.  The look-back bound is `currentTime − (maxDuration +
2.0)`, so the configured lookback window is `maxDuration + 2`.  Pixel
quantities stay in ℚ (CSS pixels); `(low + high) >>> 1` is floor
division by 2 of the non-negative sum. -/

structure MappedNoteEvent where
  note : String
  time : ℚ
  duration : ℚ
  keyIndex : Int

def timeAt (events : List MappedNoteEvent) (i : Nat) : ℚ :=
  ((events[i]?).map (fun e => e.time)).getD 0

def findStartIndexGo (events : List MappedNoteEvent) (t : ℚ)
    (low : Nat) (high : Int) : Nat :=
  if h : (low : Int) ≤ high then
    let mid : Nat := ((low : Int) + high).toNat / 2
    if timeAt events mid < t then
      findStartIndexGo events t (mid + 1) high
    else
      findStartIndexGo events t low ((mid : Int) - 1)
  else low
termination_by (high + 1 - (low : Int)).toNat
decreasing_by
  · omega
  · omega

def findStartIndex (events : List MappedNoteEvent) (t : ℚ) : Nat :=
  findStartIndexGo events t 0 ((events.length : Int) - 1)

def TimeSorted (events : List MappedNoteEvent) : Prop :=
  List.Pairwise (fun a b => a.time ≤ b.time) events

theorem timeAt_mono {events : List MappedNoteEvent} (hs : TimeSorted events)
    {i j : Nat} (hij : i ≤ j) (hj : j < events.length) :
    timeAt events i ≤ timeAt events j := by
  rcases eq_or_lt_of_le hij with rfl | hlt
  · exact le_refl _
  · have hi : i < events.length := lt_trans hlt hj
    have := (List.pairwise_iff_get.mp hs) ⟨i, hi⟩ ⟨j, hj⟩ hlt
    simpa [timeAt, List.getElem?_eq_getElem, hi, hj, List.get_eq_getElem]
      using this

theorem findStartIndexGo_spec (events : List MappedNoteEvent) (t : ℚ)
    (hs : TimeSorted events) :
    ∀ (n : Nat) (low : Nat) (high : Int),
      (high + 1 - (low : Int)).toNat = n →
      (low : Int) ≤ high + 1 →
      high < events.length →
      (∀ j : Nat, j < low → timeAt events j < t) →
      (∀ j : Nat, high < (j : Int) → j < events.length → ¬ timeAt events j < t) →
      (∀ j : Nat, j < findStartIndexGo events t low high → timeAt events j < t) ∧
        findStartIndexGo events t low high ≤ events.length ∧
        (∀ j : Nat, findStartIndexGo events t low high ≤ j →
          j < events.length → ¬ timeAt events j < t) := by
  intro n
  induction n using Nat.strong_induction_on with
  | _ n ih =>
    intro low high hn hlow hhigh hbefore hafter
    rw [findStartIndexGo]
    by_cases h : (low : Int) ≤ high
    · rw [dif_pos h]
      have hmidlow : low ≤ ((low : Int) + high).toNat / 2 := by omega
      have hmidhigh : (((((low : Int) + high).toNat / 2 : Nat)) : Int) ≤ high := by
        omega
      set mid : Nat := ((low : Int) + high).toNat / 2 with hmid
      have hmidlen : mid < events.length := by omega
      by_cases hlt : timeAt events mid < t
      · rw [if_pos hlt]
        refine ih ((high + 1 - ((mid + 1 : Nat) : Int)).toNat) (by omega)
          (mid + 1) high rfl (by omega) hhigh ?_ hafter
        intro j hj
        have hjm : j ≤ mid := by omega
        exact lt_of_le_of_lt (timeAt_mono hs hjm hmidlen) hlt
      · rw [if_neg hlt]
        refine ih (((mid : Int) - 1 + 1 - (low : Int)).toNat) (by omega)
          low ((mid : Int) - 1) rfl (by omega) (by omega) hbefore ?_
        intro j hj hjlen
        have hmj : mid ≤ j := by omega
        intro hcon
        exact hlt (lt_of_le_of_lt (timeAt_mono hs hmj hjlen) hcon)
    · rw [dif_neg h]
      refine ⟨hbefore, by omega, ?_⟩
      intro j hj hjlen
      exact hafter j (by omega) hjlen

theorem findStartIndex_spec (events : List MappedNoteEvent) (t : ℚ)
    (hs : TimeSorted events) :
    (∀ j : Nat, j < findStartIndex events t → timeAt events j < t) ∧
      findStartIndex events t ≤ events.length ∧
      (∀ j : Nat, findStartIndex events t ≤ j → j < events.length →
        ¬ timeAt events j < t) := by
  have := findStartIndexGo_spec events t hs
    (((events.length : Int) - 1) + 1 - ((0 : Nat) : Int)).toNat 0
    ((events.length : Int) - 1) rfl (by omega) (by omega)
    (fun j hj => absurd hj (Nat.not_lt_zero j))
    (fun j hj hjlen => absurd hjlen (by omega))
  exact this

def COLUMN_WIDTH : ℚ := 22
def PIXELS_PER_SECOND : ℚ := 200

structure CullParams where
  currentTime : ℚ
  maxDuration : ℚ
  hitLineY : ℚ
  width : ℚ
  scrollLeft : ℚ

def maxVisibleTime (p : CullParams) : ℚ :=
  p.currentTime + p.hitLineY / PIXELS_PER_SECOND + 1/2

def minVisibleStartTime (p : CullParams) : ℚ :=
  p.currentTime - (p.maxDuration + 2)

def passesHorizontalCull (p : CullParams) (e : MappedNoteEvent) : Bool :=
  let noteX := (e.keyIndex : ℚ) * COLUMN_WIDTH - p.scrollLeft
  decide (¬ (noteX + COLUMN_WIDTH < 0 ∨ noteX > p.width))

def passesVerticalCull (p : CullParams) (e : MappedNoteEvent) : Bool :=
  let timeUntilHit := e.time - p.currentTime
  let distanceToHit := timeUntilHit * PIXELS_PER_SECOND
  let noteHeight := e.duration * PIXELS_PER_SECOND
  let noteBottomY := p.hitLineY - distanceToHit
  let noteTopY := noteBottomY - noteHeight
  decide (¬ (noteTopY > p.hitLineY ∨ noteBottomY < -50))

def withinForwardEdge (p : CullParams) (e : MappedNoteEvent) : Bool :=
  decide (¬ e.time > maxVisibleTime p)

def renderScan (p : CullParams) : List MappedNoteEvent → List MappedNoteEvent
  | [] => []
  | e :: rest =>
    if e.time > maxVisibleTime p then []
    else
      (if passesHorizontalCull p e && passesVerticalCull p e then [e] else [])
        ++ renderScan p rest

def visibleNotes (p : CullParams) (events : List MappedNoteEvent) :
    List MappedNoteEvent :=
  renderScan p (events.drop (findStartIndex events (minVisibleStartTime p)))

theorem renderScan_eq_takeWhile_filter (p : CullParams)
    (l : List MappedNoteEvent) :
    renderScan p l = (l.takeWhile (withinForwardEdge p)).filter
      (fun e => passesHorizontalCull p e && passesVerticalCull p e) := by
  induction l with
  | nil => rfl
  | cons e rest ih =>
    rw [renderScan]
    by_cases h : e.time > maxVisibleTime p
    · rw [if_pos h]
      have hw : withinForwardEdge p e = false := by
        simp [withinForwardEdge, h]
      simp [List.takeWhile_cons, hw]
    · rw [if_neg h]
      have hw : withinForwardEdge p e = true := by
        simp [withinForwardEdge, h]
      rw [List.takeWhile_cons, hw]
      by_cases hp : (passesHorizontalCull p e && passesVerticalCull p e) = true
      · simp [hp, List.filter_cons, ih]
      · simp only [Bool.not_eq_true] at hp
        simp [hp, List.filter_cons, ih]

theorem visible_within_lead (p : CullParams) (events : List MappedNoteEvent) :
    ∀ e ∈ visibleNotes p events, e.time ≤ maxVisibleTime p := by
  unfold visibleNotes
  generalize events.drop (findStartIndex events (minVisibleStartTime p)) = l
  induction l with
  | nil =>
    intro e he
    simp [renderScan] at he
  | cons a rest ih =>
    intro e he
    rw [renderScan] at he
    by_cases h : a.time > maxVisibleTime p
    · rw [if_pos h] at he
      simp at he
    · rw [if_neg h] at he
      rcases List.mem_append.mp he with h1 | h1
      · by_cases hp : (passesHorizontalCull p a && passesVerticalCull p a) = true
        · rw [if_pos hp] at h1
          obtain rfl : e = a := by simpa using h1
          exact not_lt.mp h
        · rw [if_neg (by simpa using hp)] at h1
          simp at h1
      · exact ih e h1

def longNote : MappedNoteEvent := ⟨"C4", 1, 40, 39⟩

def longNoteParams (maxDuration : ℚ) : CullParams :=
  ⟨35, maxDuration, 520, 1000, 0⟩

theorem longNote_visible (mD : ℚ) (h : 34 ≤ mD + 2) :
    longNote ∈ visibleNotes (longNoteParams mD) [longNote] := by
  have hstep : ¬ ((1 : ℚ) < minVisibleStartTime (longNoteParams mD)) := by
    simp only [minVisibleStartTime, longNoteParams, not_lt]
    linarith
  have hsorted : TimeSorted [longNote] := by simp [TimeSorted]
  have hidx : findStartIndex [longNote]
      (minVisibleStartTime (longNoteParams mD)) = 0 := by
    obtain ⟨hbef, hlen, haft⟩ := findStartIndex_spec [longNote]
      (minVisibleStartTime (longNoteParams mD)) hsorted
    by_contra hne
    have h1 : 1 ≤ findStartIndex [longNote]
        (minVisibleStartTime (longNoteParams mD)) := by omega
    have h2 := hbef 0 h1
    have h3 : timeAt [longNote] 0 = 1 := rfl
    rw [h3] at h2
    exact hstep h2
  unfold visibleNotes
  rw [hidx, List.drop_zero, renderScan]
  have h1 : ¬ longNote.time > maxVisibleTime (longNoteParams mD) := by
    simp only [longNote, maxVisibleTime, longNoteParams, PIXELS_PER_SECOND,
      not_lt]
    norm_num
  rw [if_neg h1]
  have h2 : (passesHorizontalCull (longNoteParams mD) longNote &&
      passesVerticalCull (longNoteParams mD) longNote) = true := by
    simp only [passesHorizontalCull, passesVerticalCull, longNote,
      longNoteParams, COLUMN_WIDTH, PIXELS_PER_SECOND]
    norm_num
  rw [if_pos h2]
  simp [renderScan]


/-- C7: (1) on every time-sorted event list the binary search returns the
index of the first event whose start time is at or after the given
time bound — everything before it starts earlier, everything at or after
it does not; (2) the forward walk stops at the first event whose start
time exceeds the viewport's forward edge, drawing exactly the
per-candidate-culled prefix; (3) the 40s-long note starting at t = 1s is
still reported visible at clock time t = 35s whenever the lookback
window (maxDuration + 2) is at least 34s; (4) no event whose start time
exceeds currentTime plus the viewport lead time is ever reported
visible. -/
theorem waterfall_culling_correct :
    (∀ (events : List MappedNoteEvent) (t : ℚ), TimeSorted events →
      ((∀ j : Nat, j < findStartIndex events t → timeAt events j < t) ∧
        findStartIndex events t ≤ events.length ∧
        (∀ j : Nat, findStartIndex events t ≤ j → j < events.length →
          ¬ timeAt events j < t))) ∧
    (∀ (p : CullParams) (l : List MappedNoteEvent),
      renderScan p l = (l.takeWhile (withinForwardEdge p)).filter
        (fun e => passesHorizontalCull p e && passesVerticalCull p e)) ∧
    (∀ mD : ℚ, 34 ≤ mD + 2 →
      longNote ∈ visibleNotes (longNoteParams mD) [longNote]) ∧
    (∀ (p : CullParams) (events : List MappedNoteEvent),
      ∀ e ∈ visibleNotes p events, e.time ≤ maxVisibleTime p) :=
  ⟨fun events t hs => findStartIndex_spec events t hs,
   renderScan_eq_takeWhile_filter,
   longNote_visible,
   visible_within_lead⟩

/-- C7 witness: the culling theorem applied at the singleton long-note
list, time bound 0, and lookback window 42 (maxDuration = 40). -/
theorem waterfall_culling_correct_witness :
    (∀ j : Nat, j < findStartIndex [longNote] 0 → timeAt [longNote] j < 0) ∧
    longNote ∈ visibleNotes (longNoteParams 40) [longNote] :=
  ⟨(waterfall_culling_correct.1 [longNote] 0 (by simp [TimeSorted])).1,
   waterfall_culling_correct.2.2.1 40 (by norm_num)⟩

end ZenPiano
